import Mathlib

/-!
Verification of the workflow execution engine of the rete-demo repository.

The embedding follows `src/core/FlowRunner.ts` (scheduler `calculateExecutionOrder`,
`run`, `executeNode`, `getNodeInputs`, `updateNodeState`, `resetExecutionStates`),
`src/utils` connection helpers (`areSocketsCompatible`, `validateConnection`) and
`BaseNode.run` from `src/core/memory.ts`.

Modelling conventions:
* node ids, port names and socket type names are `String`s, as in the source;
* the `Map<string, NodeExecutionState>` of execution states is a function
  `String → Option (NodeExecutionState V)`;
* JavaScript objects used as records (`Record<string, any>`) are association
  lists `List (String × V)` read through `lookupRecord`, written through
  `setRecord` (assignment keeps the key order and overwrites, as JS does);
* `Date.now()` timestamps are wall-clock real time and are not modelled;
* a node's `run` method is a function `List (String × V) → Except String (RunResult V)`;
  a JavaScript rejection/throw is the `Except.error` case carrying the message;
* the observer callbacks `onNodeStateChange` / `onExecutionComplete` and the
  `console.warn` / `console.error` calls are modelled as an emitted event trace.
-/

namespace ReteDemo

/-- A connection of the editor graph, as read by the `FlowRunner`:
`{source, sourceOutput, target, targetInput}`. -/
structure Conn where
  source : String
  sourceOutput : String
  target : String
  targetInput : String
deriving DecidableEq, Repr

/-- The graph data the `FlowRunner` reads from the `NodeEditor`:
`editor.getNodes()` (node ids, in registration order) and
`editor.getConnections()`. -/
structure Graph where
  nodes : List String
  conns : List Conn
deriving DecidableEq, Repr

/-- `calculateExecutionOrder`: the dependencies of a node are the sources of
all connections whose target is the node
(`getConnections().filter(conn => conn.target === nodeId).map(conn => conn.source)`). -/
def deps (g : Graph) (nodeId : String) : List String :=
  (g.conns.filter (fun c => c.target == nodeId)).map (fun c => c.source)

/-- The mutable state of the depth-first traversal in `calculateExecutionOrder`:
the gray set `temp`, the black set `visited`, and the accumulated `order`. -/
structure DfsState where
  temp : List String
  visited : List String
  order : List String
deriving DecidableEq, Repr

/-- The message of the error thrown by `visit` on a gray node. -/
def cycleMsg : String := "Cycle detected in the graph"

/-- Fuel-exhaustion sentinel of the embedding; proved unreachable for the fuel
used by `calculateExecutionOrder`. -/
def fuelMsg : String := "fuel exhausted"

/-- The `for (const depId of dependencies) visit(depId)` loop: sequentially
visit a list of ids, propagating a thrown error. -/
def visitList (f : String → DfsState → Except String DfsState) :
    List String → DfsState → Except String DfsState
  | [], s => .ok s
  | id :: rest, s =>
    match f id s with
    | .error e => .error e
    | .ok s₁ => visitList f rest s₁

/-- The recursive `visit` closure of `calculateExecutionOrder`: error on a gray
node, return on a black node, otherwise mark gray, visit all dependencies,
then move to black and append to the order.  The extra fuel argument makes the
recursion structural; `calculateExecutionOrder` supplies provably sufficient
fuel. -/
def visit (g : Graph) : Nat → String → DfsState → Except String DfsState
  | 0 => fun nodeId s =>
    if nodeId ∈ s.temp then .error cycleMsg
    else if nodeId ∈ s.visited then .ok s
    else .error fuelMsg
  | fuel + 1 => fun nodeId s =>
    if nodeId ∈ s.temp then .error cycleMsg
    else if nodeId ∈ s.visited then .ok s
    else
      match visitList (visit g fuel) (deps g nodeId) { s with temp := nodeId :: s.temp } with
      | .error e => .error e
      | .ok s₁ => .ok ⟨s₁.temp.erase nodeId, nodeId :: s₁.visited, s₁.order ++ [nodeId]⟩

/-- The top-level loop of `calculateExecutionOrder`:
`for (const node of nodes) if (!visited.has(node.id)) visit(node.id)`. -/
def topVisit (g : Graph) (fuel : Nat) : List String → DfsState → Except String DfsState
  | [], s => .ok s
  | id :: rest, s =>
    if id ∈ s.visited then topVisit g fuel rest s
    else
      match visit g fuel id s with
      | .error e => .error e
      | .ok s₁ => topVisit g fuel rest s₁

/-- All node ids that can ever enter the traversal: registered nodes plus both
endpoints of every connection.  Used only to size the fuel. -/
def univIds (g : Graph) : List String :=
  g.nodes ++ g.conns.map (fun c => c.source) ++ g.conns.map (fun c => c.target)

/-- `FlowRunner.calculateExecutionOrder()`: depth-first topological sort of the
whole graph; `.error` models the thrown `Error('Cycle detected in the graph')`. -/
def calculateExecutionOrder (g : Graph) : Except String (List String) :=
  match topVisit g ((univIds g).length + 1) g.nodes ⟨[], [], []⟩ with
  | .error e => .error e
  | .ok s => .ok s.order

/-! ## Records (JavaScript objects used as `Record<string, any>`) -/

/-- Read a key of a JS object modelled as an association list. -/
def lookupRecord {V : Type} (r : List (String × V)) (k : String) : Option V :=
  (r.find? (fun p => p.1 == k)).map (fun p => p.2)

/-- JS object assignment `obj[k] = v`: overwrite in place if the key exists,
otherwise append it (JS objects keep insertion order of keys). -/
def setRecord {V : Type} (r : List (String × V)) (k : String) (v : V) : List (String × V) :=
  if r.any (fun p => p.1 == k) then
    r.map (fun p => if p.1 == k then (k, v) else p)
  else r ++ [(k, v)]

/-! ## Execution states and the `FlowRunner` -/

/-- `type NodeStatus = 'pending' | 'running' | 'success' | 'error' | 'skipped'`. -/
inductive NodeStatus where
  | pending | running | success | error | skipped
deriving DecidableEq, Repr

/-- `NodeExecutionResult` as stored by the runner: the engine itself reads only
`result?.output?.[...]`; `BaseNode.run` also fills `success`, `error`, `logs`. -/
structure RunResult (V : Type) where
  success : Bool
  output : Option (List (String × V))
  error : Option String
  logs : List String
deriving DecidableEq, Repr

/-- `NodeExecutionState` (the `node` back-pointer and the `Date.now()`
timestamps are not modelled; the error object is kept as its message). -/
structure NodeExecutionState (V : Type) where
  status : NodeStatus
  result : Option (RunResult V)
  error : Option String
deriving DecidableEq, Repr

/-- The `executionStates : Map<string, NodeExecutionState>`. -/
def States (V : Type) : Type := String → Option (NodeExecutionState V)

/-- The behaviour of the nodes: `none` when `typeof node.run !== 'function'`,
otherwise the node's `run(inputs)` returning a result or throwing. -/
def Behav (V : Type) : Type := String → Option (List (String × V) → Except String (RunResult V))

/-- The outward side channels of the engine: the two observer callbacks and the
console, in emission order. -/
inductive Event (V : Type) where
  | stateChange (nodeId : String) (state : NodeExecutionState V)
  | warn (msg : String)
  | errorLog (msg : String)
  | complete
deriving DecidableEq, Repr

/-- The `FlowRunner` instance fields read and written by `run()`. -/
structure FlowRunner (V : Type) where
  graph : Graph
  executionStates : States V
  executionOrder : List String
  isRunning : Bool

/-- `resetExecutionStates()`: clear the map and set every registered node to
`pending` (also clears `executionOrder`, done at the call site in `run`). -/
def initStates (V : Type) (g : Graph) : States V := fun id =>
  if id ∈ g.nodes then some ⟨.pending, none, none⟩ else none

/-- `updateNodeState(nodeId, updates)`: merge into the stored state if the node
is present (otherwise do nothing and fire no callback), store it, and call
`onNodeStateChange` with the new state. -/
def updateNodeStateM {V : Type} (st : States V) (nodeId : String)
    (f : NodeExecutionState V → NodeExecutionState V) : States V × List (Event V) :=
  match st nodeId with
  | none => (st, [])
  | some s =>
    let s₁ := f s
    (fun id => if id = nodeId then some s₁ else st id, [.stateChange nodeId s₁])

/-- The body of the `for (const conn of connections)` loop in
`getNodeInputs`: a connection contributes `inputs[targetInput] = value` when
its source node exists, its stored state is `success`, and
`result?.output?.[sourceOutput]` is defined; otherwise `continue`. -/
def inputStep {V : Type} (g : Graph) (st : States V) (inputs : List (String × V))
    (conn : Conn) : List (String × V) :=
  if conn.source ∈ g.nodes then
    match st conn.source with
    | none => inputs
    | some sourceState =>
      if sourceState.status = .success then
        match sourceState.result.bind (fun r =>
            r.output.bind (fun o => lookupRecord o conn.sourceOutput)) with
        | some v => setRecord inputs conn.targetInput v
        | none => inputs
      else inputs
  else inputs

/-- `getNodeInputs(node)`: fold `inputStep` over all connections whose target
is the node, starting from the empty record. -/
def getNodeInputs {V : Type} (g : Graph) (st : States V) (nodeId : String) :
    List (String × V) :=
  (g.conns.filter (fun c => c.target == nodeId)).foldl (inputStep g st) []

/-- `executeNode(node)`: skip (returning a `skipped` copy, with no state write
and no callback) unless the stored status is `pending` and the node has a
`run` function; otherwise mark `running`, resolve inputs, invoke the node, and
record `success` or `error`.  Returns the function's return value, the updated
state map and the emitted events. -/
def executeNodeM {V : Type} (g : Graph) (b : Behav V) (nodeId : String) (st : States V) :
    NodeExecutionState V × States V × List (Event V) :=
  let ns := (st nodeId).getD ⟨.pending, none, none⟩
  match b nodeId with
  | none => ({ ns with status := .skipped }, st, [])
  | some f =>
    if ns.status ≠ .pending then ({ ns with status := .skipped }, st, [])
    else
      let r₁ := updateNodeStateM st nodeId (fun s => { s with status := .running })
      let inputs := getNodeInputs g r₁.1 nodeId
      match f inputs with
      | .ok result =>
        let r₂ := updateNodeStateM r₁.1 nodeId
          (fun s => { s with status := .success, result := some result })
        (⟨.success, some result, none⟩, r₂.1, r₁.2 ++ r₂.2)
      | .error msg =>
        let r₂ := updateNodeStateM r₁.1 nodeId
          (fun s => { s with status := .error, error := some msg })
        (⟨.error, none, some msg⟩, r₂.1, r₁.2 ++ r₂.2)

/-- The `for (const nodeId of this.executionOrder)` loop of `run()`: skip ids
with no registered node, execute each node, and break (after a console error)
as soon as the stored status of the just-visited node is `error`. -/
def runLoop {V : Type} (g : Graph) (b : Behav V) :
    List String → States V → States V × List (Event V)
  | [], st => (st, [])
  | nodeId :: rest, st =>
    if nodeId ∈ g.nodes then
      let r := executeNodeM g b nodeId st
      match r.2.1 nodeId with
      | some s =>
        if s.status = .error then
          (r.2.1, r.2.2 ++ [.errorLog ("Node " ++ nodeId ++ " failed")])
        else
          let rec' := runLoop g b rest r.2.1
          (rec'.1, r.2.2 ++ rec'.2)
      | none =>
        let rec' := runLoop g b rest r.2.1
        (rec'.1, r.2.2 ++ rec'.2)
    else runLoop g b rest st

/-- `FlowRunner.run()`: warn and return if already running; otherwise reset the
states, compute the execution order (catching a thrown cycle error), execute
the order, and in all cases clear `isRunning` and call `onExecutionComplete`. -/
def FlowRunner.run {V : Type} (fr : FlowRunner V) (b : Behav V) :
    FlowRunner V × List (Event V) :=
  if fr.isRunning then (fr, [.warn "Execution already in progress"])
  else
    match calculateExecutionOrder fr.graph with
    | .error e =>
      ({ fr with executionStates := initStates V fr.graph, executionOrder := [],
                 isRunning := false },
       [.errorLog ("Error during execution: " ++ e), .complete])
    | .ok order =>
      let r := runLoop fr.graph b order (initStates V fr.graph)
      ({ fr with executionStates := r.1, executionOrder := order, isRunning := false },
       r.2 ++ [.complete])

/-! ## Connection validation (`src/utils` connection helpers) -/

/-- `areSocketsCompatible(sourceType, targetType)` from the connection
utilities: ANY connects to anything, EXEC only to EXEC, DATA only to DATA,
and otherwise exactly equal type names are allowed. -/
def areSocketsCompatible (sourceType targetType : String) : Bool :=
  if sourceType == "any" || targetType == "any" then true
  else if sourceType == "exec" then targetType == "exec"
  else if sourceType == "data" then targetType == "data"
  else sourceType == targetType

/-- A node as seen by `validateConnection`: an id and the socket type names of
its named input and output ports (`port.socket.name`). -/
structure EditorNode where
  id : String
  inputs : List (String × String)
  outputs : List (String × String)
deriving DecidableEq, Repr

/-- `validateConnection(sourceNode, sourceOutput, targetNode, targetInput)`:
no self-connection, both ports must exist, and their socket types must be
compatible. -/
def validateConnection (sourceNode : EditorNode) (sourceOutput : String)
    (targetNode : EditorNode) (targetInput : String) : Bool :=
  if sourceNode.id == targetNode.id then false
  else
    match lookupRecord sourceNode.outputs sourceOutput,
          lookupRecord targetNode.inputs targetInput with
    | some sourceSocket, some targetSocket => areSocketsCompatible sourceSocket targetSocket
    | _, _ => false

/-! ## `BaseNode.run` (`src/core/memory.ts`) -/

/-- `BaseNode.run(inputs)`: clear the logs, log the start, invoke the abstract
`executeNode`, and return a success result, or — when `executeNode` throws —
a resolved result with `success: false` and the error message (the method
never rejects).  The `context` handed to `executeNode` is the node-local
memory/logging plumbing and is folded into the function argument. -/
def baseNodeRun {V : Type} (executeNode : List (String × V) → Except String (List (String × V)))
    (inputs : List (String × V)) : RunResult V :=
  let logs := ["Node execution started"]
  match executeNode inputs with
  | .ok output =>
    { success := true, output := some output, error := none,
      logs := logs ++ ["Node execution completed successfully"] }
  | .error msg =>
    { success := false, output := none, error := some msg,
      logs := logs ++ ["Error: " ++ msg] }

/-! ## Derived notions used in the statements -/

/-- The dependency edge relation of the graph: `Rel g a b` when some
connection runs from node `a` to node `b` (`b` depends on `a`). -/
def Rel (g : Graph) (a b : String) : Prop :=
  ∃ c ∈ g.conns, c.source = a ∧ c.target = b

/-- The graph contains a directed cycle (through any kind of edge). -/
def hasCycle (g : Graph) : Prop :=
  ∃ id, Relation.TransGen (Rel g) id id

/-- Every connection runs between registered nodes. -/
def WellFormed (g : Graph) : Prop :=
  ∀ c ∈ g.conns, c.source ∈ g.nodes ∧ c.target ∈ g.nodes

/-- The status stored for a node id, if any. -/
def statusAt {V : Type} (st : States V) (id : String) : Option NodeStatus :=
  (st id).map (fun s => s.status)

/-- The value a single connection contributes in `getNodeInputs`:
`some v` exactly when the source node exists, its state is `success`, and
`result?.output?.[sourceOutput]` is the defined value `v`. -/
def resolvedValue {V : Type} (g : Graph) (st : States V) (c : Conn) : Option V :=
  if c.source ∈ g.nodes then
    (st c.source).bind (fun s =>
      if s.status = .success then
        s.result.bind (fun r => r.output.bind (fun o => lookupRecord o c.sourceOutput))
      else none)
  else none

/-- Modelled from the spec: the compatibility relation exactly as the claim
words it — `any` connects to anything, `exec` only to `exec`, `data` only to
`data`.  Stated separately from `areSocketsCompatible` (the code) so the two
can be compared. -/
def specCompatible (s t : String) : Prop :=
  s = "any" ∨ t = "any" ∨ (s = "exec" ∧ t = "exec") ∨ (s = "data" ∧ t = "data")

/-- Substring test on strings (used to state that an error message does not
name a node id). -/
def containsSub (needle hay : String) : Bool :=
  hay.toList.tails.any (fun t => needle.toList.isPrefixOf t)

/-- Recognizer for the `onExecutionComplete` event. -/
def isCompleteEv {V : Type} : Event V → Bool
  | .complete => true
  | _ => false

/-- Recognizer for a `console.error` event. -/
def isErrorEv {V : Type} : Event V → Bool
  | .errorLog _ => true
  | _ => false

/-- The execution order a run over graph `g` installs (empty when the
scheduler throws). -/
def orderOf (g : Graph) : List String :=
  match calculateExecutionOrder g with
  | .error _ => []
  | .ok o => o

/-- The event trace a fresh run over graph `g` with behaviour `b` emits. -/
def traceOf {V : Type} (g : Graph) (b : Behav V) : List (Event V) :=
  match calculateExecutionOrder g with
  | .error e => [.errorLog ("Error during execution: " ++ e), .complete]
  | .ok order => (runLoop g b order (initStates V g)).2 ++ [.complete]

/-! ## Concrete inputs used by witnesses and counterexamples -/

/-- Two nodes with one edge `a → b`: an acyclic graph. -/
def gAcyclic : Graph := ⟨["a", "b"], [⟨"a", "x", "b", "y"⟩]⟩

/-- Two nodes `n1`, `n2` with edges both ways: a cyclic graph. -/
def gCycle : Graph := ⟨["n1", "n2"], [⟨"n1", "x", "n2", "y"⟩, ⟨"n2", "x", "n1", "y"⟩]⟩

/-- A fresh runner over a graph (no states, idle). -/
def freshRunner (V : Type) (g : Graph) : FlowRunner V :=
  { graph := g, executionStates := fun _ => none, executionOrder := [], isRunning := false }

/-- A chain `a → b → c` used by the fail-fast scenarios. -/
def gChain : Graph := ⟨["a", "b", "c"], [⟨"a", "o", "b", "i"⟩, ⟨"b", "o", "c", "i"⟩]⟩

/-- Behaviour over `gChain` where `a` has no `run` function, `b` throws and
`c` would succeed. -/
def bSkipFail : Behav Nat := fun id =>
  if id = "a" then none
  else if id = "b" then some (fun _ => .error "boom")
  else if id = "c" then some (fun _ => .ok ⟨true, some [], none, []⟩)
  else none

/-- Behaviour over `gChain` where every node has a `run` function and only
`b` throws. -/
def bMidFail : Behav Nat := fun id =>
  if id = "a" then some (fun _ => .ok ⟨true, some [("o", 7)], none, []⟩)
  else if id = "b" then some (fun _ => .error "boom")
  else if id = "c" then some (fun _ => .ok ⟨true, some [], none, []⟩)
  else none

/-- Two sources `A`, `B` feeding the same input `y` of `C`. -/
def gTwoIntoOne : Graph := ⟨["A", "B", "C"], [⟨"A", "x", "C", "y"⟩, ⟨"B", "x", "C", "y"⟩]⟩

/-- States where both `A` and `B` have succeeded with different values at
output `x` and `C` is still pending. -/
def stTwoIntoOne : States Nat := fun id =>
  if id = "A" then some ⟨.success, some ⟨true, some [("x", 1)], none, []⟩, none⟩
  else if id = "B" then some ⟨.success, some ⟨true, some [("x", 2)], none, []⟩, none⟩
  else if id = "C" then some ⟨.pending, none, none⟩
  else none

/-- One source `A` feeding input `y` of `B` with the value 42. -/
def gSingleEdge : Graph := ⟨["A", "B"], [⟨"A", "x", "B", "y"⟩]⟩

/-- States where `A` has succeeded producing `{x: 42}`. -/
def stSingleEdge : States Nat := fun id =>
  if id = "A" then some ⟨.success, some ⟨true, some [("x", 42)], none, []⟩, none⟩
  else if id = "B" then some ⟨.pending, none, none⟩
  else none

/-- A source node with one `data` output port. -/
def snData : EditorNode := ⟨"s", [], [("out", "data")]⟩

/-- A target node with one `data` input port. -/
def tnData : EditorNode := ⟨"t", [("in", "data")], []⟩

/-! ## Scaffolding predicates for the scheduler proofs -/

/-- Topological soundness of an order: every connection whose target made it
into the order has its source in the order, strictly earlier. -/
def Good (g : Graph) (order : List String) : Prop :=
  ∀ c ∈ g.conns, c.target ∈ order →
    c.source ∈ order ∧ order.indexOf c.source < order.indexOf c.target

/-- Invariant of the traversal state: the black set is exactly the support of
the order, and the order is duplicate-free and topologically sound. -/
def Inv (g : Graph) (s : DfsState) : Prop :=
  (∀ id, id ∈ s.visited ↔ id ∈ s.order) ∧ s.order.Nodup ∧ Good g s.order

/-- Postcondition of one successful `visit x`: the gray set is restored, the
black set only grows (by `x` and by traversal-reachable ids, never by a gray
one), the order only gets appended to, and the invariant is preserved. -/
def OkOut (g : Graph) (x : String) (s s' : DfsState) : Prop :=
  s'.temp = s.temp ∧
  (∀ id, id ∈ s.visited → id ∈ s'.visited) ∧
  (∀ id, id ∈ s'.visited → id ∈ s.visited ∨ (id ∉ s.temp ∧ (id = x ∨ id ∈ univIds g))) ∧
  x ∈ s'.visited ∧
  (∃ t, s'.order = s.order ++ t) ∧
  (Inv g s → Inv g s')

/-- Postcondition of a successful sequential sweep over a list of ids. -/
def OkOutL (g : Graph) (ids : List String) (s s' : DfsState) : Prop :=
  s'.temp = s.temp ∧
  (∀ id, id ∈ s.visited → id ∈ s'.visited) ∧
  (∀ id, id ∈ s'.visited → id ∈ s.visited ∨ (id ∉ s.temp ∧ (id ∈ ids ∨ id ∈ univIds g))) ∧
  (∀ id, id ∈ ids → id ∈ s'.visited) ∧
  (∃ t, s'.order = s.order ++ t) ∧
  (Inv g s → Inv g s')

/-- All coloured ids come from the finite universe of the graph. -/
def SeenSub (g : Graph) (s : DfsState) : Prop :=
  ∀ id, id ∈ s.temp ∨ id ∈ s.visited → id ∈ univIds g

/-- Number of universe ids not yet coloured; bounds the recursion depth. -/
def gap (g : Graph) (s : DfsState) : Nat :=
  ((univIds g).toFinset \ (s.temp.toFinset ∪ s.visited.toFinset)).card

/-! ## Scheduler: basic lemmas -/

lemma mem_deps {g : Graph} {x n : String} : x ∈ deps g n ↔ Rel g x n := by
  simp only [deps, Rel, List.mem_map, List.mem_filter, beq_iff_eq]
  constructor
  · rintro ⟨c, ⟨hc, ht⟩, rfl⟩
    exact ⟨c, hc, rfl, ht⟩
  · rintro ⟨c, hc, rfl, ht⟩
    exact ⟨c, ⟨hc, ht⟩, rfl⟩

lemma deps_subset_univ {g : Graph} {n x : String} (h : x ∈ deps g n) : x ∈ univIds g := by
  simp only [deps, List.mem_map, List.mem_filter] at h
  obtain ⟨c, ⟨hc, _⟩, rfl⟩ := h
  unfold univIds
  exact List.mem_append_left _ (List.mem_append_right _ (List.mem_map.mpr ⟨c, hc, rfl⟩))

lemma nodes_subset_univ {g : Graph} {n : String} (h : n ∈ g.nodes) : n ∈ univIds g := by
  unfold univIds
  exact List.mem_append_left _ (List.mem_append_left _ h)

lemma okOut_of_visited {g : Graph} {x : String} {s : DfsState} (h : x ∈ s.visited) :
    OkOut g x s s :=
  ⟨rfl, fun _ h => h, fun _ h => Or.inl h, h, ⟨[], by simp⟩, fun h => h⟩

lemma visitList_ok {g : Graph} (f : String → DfsState → Except String DfsState)
    (hf : ∀ x s s', f x s = .ok s' → OkOut g x s s') :
    ∀ ids s s', visitList f ids s = .ok s' → OkOutL g ids s s' := by
  intro ids
  induction ids with
  | nil =>
    intro s s' h
    simp only [visitList, Except.ok.injEq] at h
    subst h
    exact ⟨rfl, fun _ h => h, fun _ h => Or.inl h, by simp, ⟨[], by simp⟩, fun h => h⟩
  | cons d rest ih =>
    intro s s' h
    simp only [visitList] at h
    cases hfd : f d s with
    | error e => rw [hfd] at h; exact absurd h (by simp)
    | ok s₁ =>
      rw [hfd] at h
      obtain ⟨ht1, hm1, hn1, hx1, ho1, hi1⟩ := hf d s s₁ hfd
      obtain ⟨ht2, hm2, hn2, ha2, ho2, hi2⟩ := ih s₁ s' h
      refine ⟨ht2.trans ht1, fun id hid => hm2 _ (hm1 _ hid), ?_, ?_, ?_,
        fun hi => hi2 (hi1 hi)⟩
      · intro id hid
        rcases hn2 id hid with h2 | ⟨hnt, hcase⟩
        · rcases hn1 id h2 with h1 | ⟨hnt1, hc1⟩
          · exact Or.inl h1
          · refine Or.inr ⟨hnt1, ?_⟩
            rcases hc1 with rfl | hu
            · exact Or.inl (List.mem_cons_self _ _)
            · exact Or.inr hu
        · rw [ht1] at hnt
          refine Or.inr ⟨hnt, ?_⟩
          rcases hcase with hr | hu
          · exact Or.inl (List.mem_cons_of_mem _ hr)
          · exact Or.inr hu
      · intro id hid
        rcases List.mem_cons.mp hid with rfl | hr
        · exact hm2 _ hx1
        · exact ha2 _ hr
      · obtain ⟨t1, e1⟩ := ho1
        obtain ⟨t2, e2⟩ := ho2
        exact ⟨t1 ++ t2, by rw [e2, e1, List.append_assoc]⟩

lemma visit_ok (g : Graph) :
    ∀ fuel x s s', visit g fuel x s = .ok s' → OkOut g x s s' := by
  intro fuel
  induction fuel with
  | zero =>
    intro x s s' h
    simp only [visit] at h
    by_cases h1 : x ∈ s.temp
    · rw [if_pos h1] at h; exact absurd h (by simp)
    · rw [if_neg h1] at h
      by_cases h2 : x ∈ s.visited
      · rw [if_pos h2] at h
        obtain rfl : s = s' := by simpa using h
        exact okOut_of_visited h2
      · rw [if_neg h2] at h; exact absurd h (by simp)
  | succ fuel ih =>
    intro x s s' h
    simp only [visit] at h
    by_cases h1 : x ∈ s.temp
    · rw [if_pos h1] at h; exact absurd h (by simp)
    · rw [if_neg h1] at h
      by_cases h2 : x ∈ s.visited
      · rw [if_pos h2] at h
        obtain rfl : s = s' := by simpa using h
        exact okOut_of_visited h2
      · rw [if_neg h2] at h
        cases hv : visitList (visit g fuel) (deps g x) { s with temp := x :: s.temp } with
        | error e => rw [hv] at h; exact absurd h (by simp)
        | ok s₁ =>
          rw [hv] at h
          obtain rfl : (⟨s₁.temp.erase x, x :: s₁.visited, s₁.order ++ [x]⟩ : DfsState) = s' := by
            simpa using h
          obtain ⟨ht, hm, hn, ha, ho, hi⟩ := visitList_ok (visit g fuel) (ih) (deps g x) _ _ hv
          have htemp : s₁.temp = x :: s.temp := ht
          have hxnv : x ∉ s₁.visited := by
            intro hx
            rcases hn x hx with hxv | ⟨hxt, _⟩
            · exact h2 hxv
            · exact hxt (List.mem_cons_self _ _)
          refine ⟨?_, ?_, ?_, List.mem_cons_self _ _, ?_, ?_⟩
          · show s₁.temp.erase x = s.temp
            rw [htemp]
            exact List.erase_cons_head x s.temp
          · intro id hid
            exact List.mem_cons_of_mem _ (hm _ hid)
          · intro id hid
            rcases List.mem_cons.mp hid with rfl | hidv
            · exact Or.inr ⟨h1, Or.inl rfl⟩
            · rcases hn id hidv with hidv0 | ⟨hnt, hcase⟩
              · exact Or.inl hidv0
              · refine Or.inr ⟨fun hmem => hnt (List.mem_cons_of_mem _ hmem), ?_⟩
                rcases hcase with hd | hu
                · exact Or.inr (deps_subset_univ hd)
                · exact Or.inr hu
          · obtain ⟨t, e⟩ := ho
            exact ⟨t ++ [x], by show s₁.order ++ [x] = _; rw [e, List.append_assoc]⟩
          · intro hInv
            have hInv₁ : Inv g s₁ := hi hInv
            have hxno : x ∉ s₁.order := fun hx => hxnv ((hInv₁.1 x).mpr hx)
            refine ⟨?_, ?_, ?_⟩
            · intro id
              show id ∈ x :: s₁.visited ↔ id ∈ s₁.order ++ [x]
              simp only [List.mem_cons, List.mem_append, List.mem_singleton,
                List.not_mem_nil, or_false]
              rw [hInv₁.1 id]
              exact or_comm
            · show (s₁.order ++ [x]).Nodup
              exact List.nodup_append.mpr ⟨hInv₁.2.1, List.nodup_singleton x,
                fun a ha' hb => by
                  rw [List.mem_singleton] at hb
                  subst hb
                  exact hxno ha'⟩
            · intro c hc htgt
              show c.source ∈ s₁.order ++ [x] ∧ _
              by_cases hto : c.target ∈ s₁.order
              · obtain ⟨hsrc, hlt⟩ := hInv₁.2.2 c hc hto
                refine ⟨List.mem_append_left _ hsrc, ?_⟩
                rw [List.indexOf_append_of_mem hsrc, List.indexOf_append_of_mem hto]
                exact hlt
              · have hteq : c.target = x := by
                  rcases List.mem_append.mp htgt with h' | h'
                  · exact absurd h' hto
                  · simpa using h'
                have hdep : c.source ∈ deps g x := mem_deps.mpr ⟨c, hc, rfl, hteq⟩
                have hsv : c.source ∈ s₁.visited := ha _ hdep
                have hso : c.source ∈ s₁.order := (hInv₁.1 _).mp hsv
                refine ⟨List.mem_append_left _ hso, ?_⟩
                rw [List.indexOf_append_of_mem hso, hteq,
                  List.indexOf_append_of_not_mem hxno]
                have := List.indexOf_lt_length.mpr hso
                simp only [List.indexOf_cons_self]
                omega

lemma topVisit_ok {g : Graph} {fuel : Nat} :
    ∀ ids s s', topVisit g fuel ids s = .ok s' → OkOutL g ids s s' := by
  intro ids
  induction ids with
  | nil =>
    intro s s' h
    simp only [topVisit, Except.ok.injEq] at h
    subst h
    exact ⟨rfl, fun _ h => h, fun _ h => Or.inl h, by simp, ⟨[], by simp⟩, fun h => h⟩
  | cons d rest ih =>
    intro s s' h
    simp only [topVisit] at h
    by_cases hd : d ∈ s.visited
    · rw [if_pos hd] at h
      obtain ⟨ht2, hm2, hn2, ha2, ho2, hi2⟩ := ih s s' h
      refine ⟨ht2, hm2, ?_, ?_, ho2, hi2⟩
      · intro id hid
        rcases hn2 id hid with h2 | ⟨hnt, hcase⟩
        · exact Or.inl h2
        · refine Or.inr ⟨hnt, ?_⟩
          rcases hcase with hr | hu
          · exact Or.inl (List.mem_cons_of_mem _ hr)
          · exact Or.inr hu
      · intro id hid
        rcases List.mem_cons.mp hid with rfl | hr
        · exact hm2 _ hd
        · exact ha2 _ hr
    · rw [if_neg hd] at h
      cases hfd : visit g fuel d s with
      | error e => rw [hfd] at h; exact absurd h (by simp)
      | ok s₁ =>
        rw [hfd] at h
        obtain ⟨ht1, hm1, hn1, hx1, ho1, hi1⟩ := visit_ok g fuel d s s₁ hfd
        obtain ⟨ht2, hm2, hn2, ha2, ho2, hi2⟩ := ih s₁ s' h
        refine ⟨ht2.trans ht1, fun id hid => hm2 _ (hm1 _ hid), ?_, ?_, ?_,
          fun hi => hi2 (hi1 hi)⟩
        · intro id hid
          rcases hn2 id hid with h2 | ⟨hnt, hcase⟩
          · rcases hn1 id h2 with h1 | ⟨hnt1, hc1⟩
            · exact Or.inl h1
            · refine Or.inr ⟨hnt1, ?_⟩
              rcases hc1 with rfl | hu
              · exact Or.inl (List.mem_cons_self _ _)
              · exact Or.inr hu
          · rw [ht1] at hnt
            refine Or.inr ⟨hnt, ?_⟩
            rcases hcase with hr | hu
            · exact Or.inl (List.mem_cons_of_mem _ hr)
            · exact Or.inr hu
        · intro id hid
          rcases List.mem_cons.mp hid with rfl | hr
          · exact hm2 _ hx1
          · exact ha2 _ hr
        · obtain ⟨t1, e1⟩ := ho1
          obtain ⟨t2, e2⟩ := ho2
          exact ⟨t1 ++ t2, by rw [e2, e1, List.append_assoc]⟩

lemma gap_le_of_okOut {g : Graph} {x : String} {s s' : DfsState} (h : OkOut g x s s') :
    gap g s' ≤ gap g s := by
  obtain ⟨ht, hm, _, _, _, _⟩ := h
  apply Finset.card_le_card
  apply Finset.sdiff_subset_sdiff (Finset.Subset.refl _)
  intro id hid
  simp only [Finset.mem_union, List.mem_toFinset] at hid ⊢
  rcases hid with h1 | h2
  · exact Or.inl (by rw [ht]; exact h1)
  · exact Or.inr (hm _ h2)

lemma seenSub_of_okOut {g : Graph} {x : String} {s s' : DfsState}
    (hx : x ∈ univIds g) (h : OkOut g x s s') (hs : SeenSub g s) : SeenSub g s' := by
  obtain ⟨ht, _, hn, _, _, _⟩ := h
  intro id hid
  rcases hid with h1 | h2
  · exact hs id (Or.inl (by rw [← ht]; exact h1))
  · rcases hn id h2 with hv | ⟨_, hc⟩
    · exact hs id (Or.inr hv)
    · rcases hc with rfl | hu
      · exact hx
      · exact hu

lemma visitList_fuel {g : Graph} (f : String → DfsState → Except String DfsState) (B : Nat)
    (hf_ok : ∀ x s s', f x s = .ok s' → OkOut g x s s')
    (hf_err : ∀ x s e, x ∈ univIds g → SeenSub g s → gap g s ≤ B →
      f x s = .error e → e = cycleMsg) :
    ∀ ids s e, (∀ id ∈ ids, id ∈ univIds g) → SeenSub g s → gap g s ≤ B →
      visitList f ids s = .error e → e = cycleMsg := by
  intro ids
  induction ids with
  | nil => intro s e _ _ _ h; simp [visitList] at h
  | cons d rest ih =>
    intro s e hids hs hgap h
    simp only [visitList] at h
    cases hfd : f d s with
    | error e' =>
      rw [hfd] at h
      have he : e' = e := by simpa using h
      rw [← he]
      exact hf_err d s e' (hids d (List.mem_cons_self _ _)) hs hgap hfd
    | ok s₁ =>
      rw [hfd] at h
      have hok := hf_ok d s s₁ hfd
      exact ih s₁ e (fun id hid => hids id (List.mem_cons_of_mem _ hid))
        (seenSub_of_okOut (hids d (List.mem_cons_self _ _)) hok hs)
        (le_trans (gap_le_of_okOut hok) hgap) h

lemma fresh_mem_gapset {g : Graph} {x : String} {s : DfsState}
    (hx : x ∈ univIds g) (h1 : x ∉ s.temp) (h2 : x ∉ s.visited) :
    x ∈ (univIds g).toFinset \ (s.temp.toFinset ∪ s.visited.toFinset) := by
  simp only [Finset.mem_sdiff, Finset.mem_union, List.mem_toFinset]
  exact ⟨hx, by tauto⟩

lemma gap_inner {g : Graph} {x : String} {s : DfsState}
    (hx : x ∈ univIds g) (h1 : x ∉ s.temp) (h2 : x ∉ s.visited) :
    gap g { s with temp := x :: s.temp } = gap g s - 1 := by
  unfold gap
  show ((univIds g).toFinset \ ((x :: s.temp).toFinset ∪ s.visited.toFinset)).card = _
  rw [List.toFinset_cons, Finset.insert_union, Finset.sdiff_insert,
    Finset.card_erase_of_mem (fresh_mem_gapset hx h1 h2)]

lemma visit_fuel (g : Graph) :
    ∀ fuel x s e, x ∈ univIds g → SeenSub g s → gap g s ≤ fuel →
      visit g fuel x s = .error e → e = cycleMsg := by
  intro fuel
  induction fuel with
  | zero =>
    intro x s e hx hs hgap h
    simp only [visit] at h
    by_cases h1 : x ∈ s.temp
    · rw [if_pos h1] at h
      exact (by simpa using h : cycleMsg = e).symm
    · rw [if_neg h1] at h
      by_cases h2 : x ∈ s.visited
      · rw [if_pos h2] at h; exact absurd h (by simp)
      · rw [if_neg h2] at h
        exfalso
        have : 0 < gap g s := Finset.card_pos.mpr ⟨x, fresh_mem_gapset hx h1 h2⟩
        omega
  | succ fuel ih =>
    intro x s e hx hs hgap h
    simp only [visit] at h
    by_cases h1 : x ∈ s.temp
    · rw [if_pos h1] at h
      exact (by simpa using h : cycleMsg = e).symm
    · rw [if_neg h1] at h
      by_cases h2 : x ∈ s.visited
      · rw [if_pos h2] at h; exact absurd h (by simp)
      · rw [if_neg h2] at h
        cases hv : visitList (visit g fuel) (deps g x) { s with temp := x :: s.temp } with
        | ok s₁ => rw [hv] at h; exact absurd h (by simp)
        | error e' =>
          rw [hv] at h
          have he : e' = e := by simpa using h
          rw [← he]
          refine visitList_fuel (visit g fuel) fuel (visit_ok g fuel) ih (deps g x) _ e'
            (fun id hid => deps_subset_univ hid) ?_ ?_ hv
          · intro id hid
            rcases hid with hT | hV
            · rcases List.mem_cons.mp hT with rfl | hT'
              · exact hx
              · exact hs id (Or.inl hT')
            · exact hs id (Or.inr hV)
          · rw [gap_inner hx h1 h2]
            have : 0 < gap g s := Finset.card_pos.mpr ⟨x, fresh_mem_gapset hx h1 h2⟩
            omega

lemma topVisit_fuel {g : Graph} (fuel : Nat) :
    ∀ ids s e, (∀ id ∈ ids, id ∈ univIds g) → SeenSub g s → gap g s ≤ fuel →
      topVisit g fuel ids s = .error e → e = cycleMsg := by
  intro ids
  induction ids with
  | nil => intro s e _ _ _ h; simp [topVisit] at h
  | cons d rest ih =>
    intro s e hids hs hgap h
    simp only [topVisit] at h
    by_cases hd : d ∈ s.visited
    · rw [if_pos hd] at h
      exact ih s e (fun id hid => hids id (List.mem_cons_of_mem _ hid)) hs hgap h
    · rw [if_neg hd] at h
      cases hfd : visit g fuel d s with
      | error e' =>
        rw [hfd] at h
        have he : e' = e := by simpa using h
        rw [← he]
        exact visit_fuel g fuel d s e' (hids d (List.mem_cons_self _ _)) hs hgap hfd
      | ok s₁ =>
        rw [hfd] at h
        have hok := visit_ok g fuel d s s₁ hfd
        exact ih s₁ e (fun id hid => hids id (List.mem_cons_of_mem _ hid))
          (seenSub_of_okOut (hids d (List.mem_cons_self _ _)) hok hs)
          (le_trans (gap_le_of_okOut hok) hgap) h

lemma calc_err_msg {g : Graph} {e : String}
    (h : calculateExecutionOrder g = .error e) : e = cycleMsg := by
  unfold calculateExecutionOrder at h
  cases htv : topVisit g ((univIds g).length + 1) g.nodes ⟨[], [], []⟩ with
  | ok s => rw [htv] at h; exact absurd h (by simp)
  | error e' =>
    rw [htv] at h
    have he : e' = e := by simpa using h
    rw [← he]
    refine topVisit_fuel _ g.nodes _ e' (fun id hid => nodes_subset_univ hid) ?_ ?_ htv
    · intro id hid
      rcases hid with h' | h' <;> exact absurd h' (List.not_mem_nil id)
    · unfold gap
      show ((univIds g).toFinset \ (List.toFinset [] ∪ List.toFinset [])).card ≤ _
      rw [List.toFinset_nil, Finset.empty_union, Finset.sdiff_empty]
      have h2 : (univIds g).toFinset.card ≤ (univIds g).length :=
        List.toFinset_card_le (univIds g)
      omega

lemma chain_reflTransGen {g : Graph} :
    ∀ {l : List String} {a x : String},
      List.Chain' (Rel g) (a :: l) → x ∈ a :: l → Relation.ReflTransGen (Rel g) a x := by
  intro l
  induction l with
  | nil =>
    intro a x _ hx
    obtain rfl : x = a := by simpa using hx
    exact .refl
  | cons b l' ih =>
    intro a x hch hx
    rcases List.mem_cons.mp hx with rfl | hx'
    · exact .refl
    · exact Relation.ReflTransGen.head (List.chain'_cons.mp hch).1
        (ih (List.chain'_cons.mp hch).2 hx')

lemma cycle_of_mem_temp {g : Graph} {x : String} {s : DfsState}
    (hch : List.Chain' (Rel g) (x :: s.temp)) (h1 : x ∈ s.temp) : hasCycle g := by
  cases htemp : s.temp with
  | nil => rw [htemp] at h1; exact absurd h1 (List.not_mem_nil x)
  | cons a tl =>
    rw [htemp] at h1 hch
    exact ⟨x, Relation.TransGen.head' (List.chain'_cons.mp hch).1
      (chain_reflTransGen (List.chain'_cons.mp hch).2 h1)⟩

lemma visitList_cycErr {g : Graph} (f : String → DfsState → Except String DfsState)
    (hf_ok : ∀ x s s', f x s = .ok s' → OkOut g x s s')
    (hf_err : ∀ x s, List.Chain' (Rel g) (x :: s.temp) →
      f x s = .error cycleMsg → hasCycle g) :
    ∀ ids s, (∀ d ∈ ids, List.Chain' (Rel g) (d :: s.temp)) →
      visitList f ids s = .error cycleMsg → hasCycle g := by
  intro ids
  induction ids with
  | nil => intro s _ h; simp [visitList] at h
  | cons d rest ih =>
    intro s hch h
    simp only [visitList] at h
    cases hfd : f d s with
    | error e' =>
      rw [hfd] at h
      obtain rfl : e' = cycleMsg := by simpa using h
      exact hf_err d s (hch d (List.mem_cons_self _ _)) hfd
    | ok s₁ =>
      rw [hfd] at h
      have ht := (hf_ok d s s₁ hfd).1
      refine ih s₁ (fun d' hd' => ?_) h
      rw [ht]
      exact hch d' (List.mem_cons_of_mem _ hd')

lemma visit_cycErr (g : Graph) :
    ∀ fuel x s, List.Chain' (Rel g) (x :: s.temp) →
      visit g fuel x s = .error cycleMsg → hasCycle g := by
  intro fuel
  induction fuel with
  | zero =>
    intro x s hch h
    simp only [visit] at h
    by_cases h1 : x ∈ s.temp
    · exact cycle_of_mem_temp hch h1
    · rw [if_neg h1] at h
      by_cases h2 : x ∈ s.visited
      · rw [if_pos h2] at h; exact absurd h (by simp)
      · rw [if_neg h2] at h
        exfalso
        exact absurd (by simpa using h : fuelMsg = cycleMsg) (by decide)
  | succ fuel ih =>
    intro x s hch h
    simp only [visit] at h
    by_cases h1 : x ∈ s.temp
    · exact cycle_of_mem_temp hch h1
    · rw [if_neg h1] at h
      by_cases h2 : x ∈ s.visited
      · rw [if_pos h2] at h; exact absurd h (by simp)
      · rw [if_neg h2] at h
        cases hv : visitList (visit g fuel) (deps g x) { s with temp := x :: s.temp } with
        | ok s₁ => rw [hv] at h; exact absurd h (by simp)
        | error e' =>
          rw [hv] at h
          obtain rfl : e' = cycleMsg := by simpa using h
          refine visitList_cycErr (visit g fuel) (visit_ok g fuel) ih (deps g x) _ ?_ hv
          intro d hd
          show List.Chain' (Rel g) (d :: x :: s.temp)
          exact List.chain'_cons.mpr ⟨mem_deps.mp hd, hch⟩

lemma topVisit_cycErr {g : Graph} {fuel : Nat} :
    ∀ ids s, (∀ d ∈ ids, List.Chain' (Rel g) (d :: s.temp)) →
      topVisit g fuel ids s = .error cycleMsg → hasCycle g := by
  intro ids
  induction ids with
  | nil => intro s _ h; simp [topVisit] at h
  | cons d rest ih =>
    intro s hch h
    simp only [topVisit] at h
    by_cases hd : d ∈ s.visited
    · rw [if_pos hd] at h
      exact ih s (fun d' hd' => hch d' (List.mem_cons_of_mem _ hd')) h
    · rw [if_neg hd] at h
      cases hfd : visit g fuel d s with
      | error e' =>
        rw [hfd] at h
        obtain rfl : e' = cycleMsg := by simpa using h
        exact visit_cycErr g fuel d s (hch d (List.mem_cons_self _ _)) hfd
      | ok s₁ =>
        rw [hfd] at h
        have ht := (visit_ok g fuel d s s₁ hfd).1
        refine ih s₁ (fun d' hd' => ?_) h
        rw [ht]
        exact hch d' (List.mem_cons_of_mem _ hd')

lemma calc_err_hasCycle {g : Graph} {e : String}
    (h : calculateExecutionOrder g = .error e) : hasCycle g := by
  obtain rfl : e = cycleMsg := calc_err_msg h
  unfold calculateExecutionOrder at h
  cases htv : topVisit g ((univIds g).length + 1) g.nodes ⟨[], [], []⟩ with
  | ok s => rw [htv] at h; exact absurd h (by simp)
  | error e' =>
    rw [htv] at h
    obtain rfl : e' = cycleMsg := by simpa using h
    refine topVisit_cycErr g.nodes _ (fun d _ => ?_) htv
    show List.Chain' (Rel g) [d]
    exact List.chain'_singleton d

lemma transGen_indexOf_lt {g : Graph} {order : List String}
    (hg : Good g order) (hn : ∀ n ∈ g.nodes, n ∈ order) (hw : WellFormed g) :
    ∀ {a b : String}, Relation.TransGen (Rel g) a b →
      order.indexOf a < order.indexOf b := by
  have step : ∀ {x y : String}, Rel g x y → order.indexOf x < order.indexOf y := by
    rintro x y ⟨c, hc, rfl, rfl⟩
    exact (hg c hc (hn _ (hw c hc).2)).2
  intro a b h
  induction h with
  | single hr => exact step hr
  | tail _ hr ih => exact lt_trans ih (step hr)

lemma calc_ok_spec {g : Graph} {order : List String}
    (h : calculateExecutionOrder g = .ok order) :
    order.Nodup ∧ (∀ n ∈ g.nodes, n ∈ order) ∧ Good g order := by
  unfold calculateExecutionOrder at h
  cases htv : topVisit g ((univIds g).length + 1) g.nodes ⟨[], [], []⟩ with
  | error e => rw [htv] at h; exact absurd h (by simp)
  | ok s =>
    rw [htv] at h
    obtain rfl : s.order = order := by simpa using h
    obtain ⟨_, _, _, ha, _, hi⟩ := topVisit_ok _ _ _ htv
    have hInv0 : Inv g ⟨[], [], []⟩ :=
      ⟨by simp, List.nodup_nil, fun c hc ht => by simp at ht⟩
    have hInv := hi hInv0
    exact ⟨hInv.2.1, fun n hn => (hInv.1 n).mp (ha n hn), hInv.2.2⟩

lemma calc_cyc_err {g : Graph} (hw : WellFormed g) (hc : hasCycle g) :
    calculateExecutionOrder g = .error cycleMsg := by
  cases h : calculateExecutionOrder g with
  | ok order =>
    exfalso
    obtain ⟨_, hn, hg⟩ := calc_ok_spec h
    obtain ⟨id, htg⟩ := hc
    exact lt_irrefl _ (transGen_indexOf_lt hg hn hw htg)
  | error e => rw [← calc_err_msg h]

lemma calc_acyclic_ok {g : Graph} (h : ¬ hasCycle g) :
    ∃ order, calculateExecutionOrder g = .ok order := by
  cases hr : calculateExecutionOrder g with
  | ok order => exact ⟨order, rfl⟩
  | error e => exact absurd (calc_err_hasCycle hr) h

/-! ## Engine: single-node execution lemmas -/

lemma executeNodeM_skip {V : Type} {g : Graph} {b : Behav V} {n : String} {st : States V}
    (h : b n = none ∨ ((st n).getD ⟨.pending, none, none⟩).status ≠ .pending) :
    executeNodeM g b n st =
      ({ (st n).getD ⟨.pending, none, none⟩ with status := .skipped }, st, []) := by
  unfold executeNodeM
  rcases h with h | h
  · rw [h]
  · cases hb : b n with
    | none => rfl
    | some f =>
      simp only
      rw [if_pos h]

lemma executeNodeM_ghost {V : Type} {g : Graph} {b : Behav V} {n : String} {st : States V}
    {f : List (String × V) → Except String (RunResult V)}
    (hst : st n = none) (hb : b n = some f) :
    (executeNodeM g b n st).2.1 = st ∧ (executeNodeM g b n st).2.2 = [] := by
  unfold executeNodeM updateNodeStateM
  simp only [hb, hst, Option.getD_none]
  cases hf : f (getNodeInputs g st n) <;> simp

lemma executeNodeM_frame {V : Type} {g : Graph} {b : Behav V} {n : String} {st : States V}
    {id : String} (hid : id ≠ n) :
    (executeNodeM g b n st).2.1 id = st id := by
  unfold executeNodeM updateNodeStateM
  cases hb : b n with
  | none => rfl
  | some f =>
    dsimp only
    by_cases hp : ((st n).getD ⟨.pending, none, none⟩).status ≠ .pending
    · rw [if_pos hp]
    · rw [if_neg hp]
      cases hst : st n with
      | none =>
        simp only [hst]
        cases hf : f (getNodeInputs g st n) <;> simp
      | some s₀ =>
        simp only [hst]
        cases hf : f (getNodeInputs g
            (fun id' => if id' = n then some { s₀ with status := .running } else st id') n) with
        | ok r => simp [hf, hid]
        | error m => simp [hf, hid]

lemma executeNodeM_exec_status {V : Type} {g : Graph} {b : Behav V} {n : String}
    {st : States V} {s₀ : NodeExecutionState V}
    {f : List (String × V) → Except String (RunResult V)}
    (hst : st n = some s₀) (hp : s₀.status = .pending) (hb : b n = some f) :
    statusAt (executeNodeM g b n st).2.1 n = some .success ∨
    statusAt (executeNodeM g b n st).2.1 n = some .error := by
  have hnp : ¬ (((st n).getD ⟨.pending, none, none⟩).status ≠ .pending) := by
    rw [hst]
    simp [hp]
  unfold statusAt executeNodeM updateNodeStateM
  simp only [hb]
  rw [if_neg hnp]
  simp only [hst]
  cases hf : f (getNodeInputs g
      (fun id => if id = n then some { s₀ with status := .running } else st id) n) with
  | ok r => left; simp [hf]
  | error m => right; simp [hf]

lemma executeNodeM_events {V : Type} (g : Graph) (b : Behav V) (n : String) (st : States V) :
    ∀ e ∈ (executeNodeM g b n st).2.2, isCompleteEv e = false := by
  unfold executeNodeM updateNodeStateM
  cases hb : b n with
  | none => intro e he; simp at he
  | some f =>
    dsimp only
    by_cases hp : ((st n).getD ⟨.pending, none, none⟩).status ≠ .pending
    · rw [if_pos hp]; intro e he; simp at he
    · rw [if_neg hp]
      cases hst : st n with
      | none =>
        simp only [hst]
        cases hf : f (getNodeInputs g st n) <;> (intro e he; simp at he)
      | some s₀ =>
        simp only [hst]
        cases hf : f (getNodeInputs g
            (fun id' => if id' = n then some { s₀ with status := .running } else st id') n) with
        | ok r =>
          intro e he
          simp [hf] at he
          rcases he with rfl | rfl <;> rfl
        | error m =>
          intro e he
          simp [hf] at he
          rcases he with rfl | rfl <;> rfl

/-! ## Engine: loop lemmas -/

lemma getD_mem {l : List String} {i : Nat} (h : i < l.length) (d : String) :
    l.getD i d ∈ l := by
  rw [List.getD_eq_getElem l d h]
  exact l.getElem_mem h

lemma runLoop_frame {V : Type} (g : Graph) (b : Behav V) :
    ∀ (ids : List String) (st : States V) (id : String), id ∉ ids →
      (runLoop g b ids st).1 id = st id := by
  intro ids
  induction ids with
  | nil => intro st id _; rfl
  | cons n rest ih =>
    intro st id h
    have hne : id ≠ n := fun e => h (e ▸ List.mem_cons_self _ _)
    have hrest : id ∉ rest := fun hr => h (List.mem_cons_of_mem _ hr)
    simp only [runLoop]
    by_cases hn : n ∈ g.nodes
    · rw [if_pos hn]
      cases hm : (executeNodeM g b n st).2.1 n with
      | some s =>
        dsimp only
        by_cases hs : s.status = .error
        · rw [if_pos hs]
          exact executeNodeM_frame hne
        · rw [if_neg hs]
          dsimp only
          rw [ih _ _ hrest]
          exact executeNodeM_frame hne
      | none =>
        dsimp only
        rw [ih _ _ hrest]
        exact executeNodeM_frame hne
    · rw [if_neg hn]
      exact ih _ _ hrest

lemma runLoop_events {V : Type} (g : Graph) (b : Behav V) :
    ∀ (ids : List String) (st : States V),
      ∀ e ∈ (runLoop g b ids st).2, isCompleteEv e = false := by
  intro ids
  induction ids with
  | nil => intro st e he; simp [runLoop] at he
  | cons n rest ih =>
    intro st e he
    simp only [runLoop] at he
    by_cases hn : n ∈ g.nodes
    · rw [if_pos hn] at he
      cases hm : (executeNodeM g b n st).2.1 n with
      | some s =>
        rw [hm] at he
        dsimp only at he
        by_cases hs : s.status = .error
        · rw [if_pos hs] at he
          rcases List.mem_append.mp he with h1 | h1
          · exact executeNodeM_events g b n st e h1
          · obtain rfl : e = .errorLog ("Node " ++ n ++ " failed") := by simpa using h1
            rfl
        · rw [if_neg hs] at he
          dsimp only at he
          rcases List.mem_append.mp he with h1 | h1
          · exact executeNodeM_events g b n st e h1
          · exact ih _ e h1
      | none =>
        rw [hm] at he
        dsimp only at he
        rcases List.mem_append.mp he with h1 | h1
        · exact executeNodeM_events g b n st e h1
        · exact ih _ e h1
    · rw [if_neg hn] at he
      exact ih _ e he

lemma initStates_mem {V : Type} {g : Graph} {id : String} (h : id ∈ g.nodes) :
    initStates V g id = some ⟨.pending, none, none⟩ := by
  unfold initStates
  rw [if_pos h]

lemma initStates_not_mem {V : Type} {g : Graph} {id : String} (h : id ∉ g.nodes) :
    initStates V g id = none := by
  unfold initStates
  rw [if_neg h]

/-- The fail-fast shape of the loop: when the node at position `i` of the order
ends with status `error`, everything after stays `pending` and everything
before is `success` (if it had a `run` function) or still `pending` (if not). -/
lemma runLoop_char {V : Type} (g : Graph) (b : Behav V) :
    ∀ (ids : List String) (st : States V),
      ids.Nodup →
      (∀ id ∈ ids, id ∈ g.nodes → statusAt st id = some .pending) →
      (∀ id ∈ ids, id ∉ g.nodes → st id = none) →
      ∀ i, i < ids.length →
        statusAt (runLoop g b ids st).1 (ids.getD i "") = some .error →
        (∀ j, j < ids.length → i < j → ids.getD j "" ∈ g.nodes →
          statusAt (runLoop g b ids st).1 (ids.getD j "") = some .pending) ∧
        (∀ j, j < i → ids.getD j "" ∈ g.nodes →
          ((b (ids.getD j "")).isSome →
            statusAt (runLoop g b ids st).1 (ids.getD j "") = some .success) ∧
          (b (ids.getD j "") = none →
            statusAt (runLoop g b ids st).1 (ids.getD j "") = some .pending)) := by
  intro ids
  induction ids with
  | nil =>
    intro st _ _ _ i hi
    exact absurd hi (by simp)
  | cons n rest ih =>
    intro st hnd hp hg i hi herr
    have hnN : n ∉ rest := (List.nodup_cons.mp hnd).1
    have hndr : rest.Nodup := (List.nodup_cons.mp hnd).2
    by_cases hn : n ∈ g.nodes
    · obtain ⟨s₀, hs₀, hs₀p⟩ : ∃ s₀, st n = some s₀ ∧ s₀.status = .pending := by
        have hx := hp n (List.mem_cons_self _ _) hn
        unfold statusAt at hx
        cases hstn : st n with
        | none => rw [hstn] at hx; simp at hx
        | some s =>
          rw [hstn] at hx
          simp at hx
          exact ⟨s, rfl, hx⟩
      cases hb : b n with
      | none =>
        have hstep : runLoop g b (n :: rest) st = runLoop g b rest st := by
          simp only [runLoop]
          rw [if_pos hn, executeNodeM_skip (Or.inl hb)]
          dsimp only
          rw [hs₀]
          dsimp only
          rw [if_neg (by rw [hs₀p]; decide : ¬ s₀.status = NodeStatus.error)]
          rfl
        rw [hstep] at herr ⊢
        cases i with
        | zero =>
          exfalso
          rw [List.getD_cons_zero] at herr
          unfold statusAt at herr
          rw [runLoop_frame g b rest st n hnN, hs₀] at herr
          simp [hs₀p] at herr
        | succ i' =>
          have hi' : i' < rest.length := by simpa using hi
          rw [List.getD_cons_succ] at herr
          obtain ⟨hA, hB⟩ := ih st hndr
            (fun id hid => hp id (List.mem_cons_of_mem _ hid))
            (fun id hid => hg id (List.mem_cons_of_mem _ hid)) i' hi' herr
          refine ⟨?_, ?_⟩
          · intro j hj hij hjn
            cases j with
            | zero => omega
            | succ j' =>
              rw [List.getD_cons_succ] at hjn ⊢
              exact hA j' (by simpa using hj) (by omega) hjn
          · intro j hj hjn
            cases j with
            | zero =>
              rw [List.getD_cons_zero] at hjn ⊢
              refine ⟨?_, ?_⟩
              · intro hbn
                rw [hb] at hbn
                exact absurd hbn (by simp)
              · intro _
                unfold statusAt
                rw [runLoop_frame g b rest st n hnN, hs₀]
                simp [hs₀p]
            | succ j' =>
              rw [List.getD_cons_succ] at hjn ⊢
              exact hB j' (by omega) hjn
      | some f =>
        rcases executeNodeM_exec_status hs₀ hs₀p hb with hsucc | herrc
        · obtain ⟨s₁, hs₁, hs₁succ⟩ :
              ∃ s₁, (executeNodeM g b n st).2.1 n = some s₁ ∧ s₁.status = .success := by
            unfold statusAt at hsucc
            cases hm : (executeNodeM g b n st).2.1 n with
            | none => rw [hm] at hsucc; simp at hsucc
            | some s =>
              rw [hm] at hsucc
              simp at hsucc
              exact ⟨s, rfl, hsucc⟩
          have hstep : runLoop g b (n :: rest) st =
              ((runLoop g b rest (executeNodeM g b n st).2.1).1,
               (executeNodeM g b n st).2.2 ++
                 (runLoop g b rest (executeNodeM g b n st).2.1).2) := by
            simp only [runLoop]
            rw [if_pos hn, hs₁]
            dsimp only
            rw [if_neg (by rw [hs₁succ]; decide : ¬ s₁.status = NodeStatus.error)]
          have hp' : ∀ id ∈ rest, id ∈ g.nodes →
              statusAt (executeNodeM g b n st).2.1 id = some .pending := by
            intro id hid hidn
            have hne : id ≠ n := fun e => hnN (e ▸ hid)
            unfold statusAt
            rw [executeNodeM_frame hne]
            exact hp id (List.mem_cons_of_mem _ hid) hidn
          have hg' : ∀ id ∈ rest, id ∉ g.nodes →
              (executeNodeM g b n st).2.1 id = none := by
            intro id hid hidn
            have hne : id ≠ n := fun e => hnN (e ▸ hid)
            rw [executeNodeM_frame hne]
            exact hg id (List.mem_cons_of_mem _ hid) hidn
          cases i with
          | zero =>
            exfalso
            rw [List.getD_cons_zero, hstep] at herr
            unfold statusAt at herr
            dsimp only at herr
            rw [runLoop_frame g b rest _ n hnN, hs₁] at herr
            simp [hs₁succ] at herr
          | succ i' =>
            have hi' : i' < rest.length := by simpa using hi
            rw [List.getD_cons_succ, hstep] at herr
            dsimp only at herr
            obtain ⟨hA, hB⟩ := ih (executeNodeM g b n st).2.1 hndr hp' hg' i' hi' herr
            refine ⟨?_, ?_⟩
            · intro j hj hij hjn
              cases j with
              | zero => omega
              | succ j' =>
                rw [List.getD_cons_succ] at hjn ⊢
                rw [hstep]
                dsimp only
                exact hA j' (by simpa using hj) (by omega) hjn
            · intro j hj hjn
              cases j with
              | zero =>
                rw [List.getD_cons_zero] at hjn ⊢
                refine ⟨?_, ?_⟩
                · intro _
                  rw [hstep]
                  dsimp only
                  unfold statusAt
                  rw [runLoop_frame g b rest _ n hnN, hs₁]
                  simp [hs₁succ]
                · intro hbn
                  rw [hb] at hbn
                  exact absurd hbn (by simp)
              | succ j' =>
                rw [List.getD_cons_succ] at hjn ⊢
                rw [hstep]
                dsimp only
                exact hB j' (by omega) hjn
        · obtain ⟨s₁, hs₁, hs₁err⟩ :
              ∃ s₁, (executeNodeM g b n st).2.1 n = some s₁ ∧ s₁.status = .error := by
            unfold statusAt at herrc
            cases hm : (executeNodeM g b n st).2.1 n with
            | none => rw [hm] at herrc; simp at herrc
            | some s =>
              rw [hm] at herrc
              simp at herrc
              exact ⟨s, rfl, herrc⟩
          have hstep : runLoop g b (n :: rest) st =
              ((executeNodeM g b n st).2.1,
               (executeNodeM g b n st).2.2 ++
                 [.errorLog ("Node " ++ n ++ " failed")]) := by
            simp only [runLoop]
            rw [if_pos hn, hs₁]
            dsimp only
            rw [if_pos hs₁err]
          cases i with
          | succ i' =>
            exfalso
            rw [List.getD_cons_succ, hstep] at herr
            dsimp only at herr
            have hi' : i' < rest.length := by simpa using hi
            have hmem : rest.getD i' "" ∈ rest := getD_mem hi' _
            have hne : rest.getD i' "" ≠ n := fun e => hnN (e ▸ hmem)
            unfold statusAt at herr
            rw [executeNodeM_frame hne] at herr
            by_cases hgn : rest.getD i' "" ∈ g.nodes
            · have hx := hp _ (List.mem_cons_of_mem _ hmem) hgn
              unfold statusAt at hx
              rw [hx] at herr
              exact absurd herr (by simp)
            · have hx := hg _ (List.mem_cons_of_mem _ hmem) hgn
              rw [hx] at herr
              exact absurd herr (by simp)
          | zero =>
            refine ⟨?_, ?_⟩
            · intro j hj hij hjn
              cases j with
              | zero => omega
              | succ j' =>
                rw [List.getD_cons_succ] at hjn ⊢
                rw [hstep]
                dsimp only
                have hj' : j' < rest.length := by simpa using hj
                have hmem : rest.getD j' "" ∈ rest := getD_mem hj' _
                have hne : rest.getD j' "" ≠ n := fun e => hnN (e ▸ hmem)
                unfold statusAt
                rw [executeNodeM_frame hne]
                exact hp _ (List.mem_cons_of_mem _ hmem) hjn
            · intro j hj _
              exact absurd hj (by omega)
    · have hstn : st n = none := hg n (List.mem_cons_self _ _) hn
      have hstep : runLoop g b (n :: rest) st = runLoop g b rest st := by
        simp only [runLoop]
        rw [if_neg hn]
      rw [hstep] at herr ⊢
      cases i with
      | zero =>
        exfalso
        rw [List.getD_cons_zero] at herr
        unfold statusAt at herr
        rw [runLoop_frame g b rest st n hnN, hstn] at herr
        exact absurd herr (by simp)
      | succ i' =>
        have hi' : i' < rest.length := by simpa using hi
        rw [List.getD_cons_succ] at herr
        obtain ⟨hA, hB⟩ := ih st hndr
          (fun id hid => hp id (List.mem_cons_of_mem _ hid))
          (fun id hid => hg id (List.mem_cons_of_mem _ hid)) i' hi' herr
        refine ⟨?_, ?_⟩
        · intro j hj hij hjn
          cases j with
          | zero => omega
          | succ j' =>
            rw [List.getD_cons_succ] at hjn ⊢
            exact hA j' (by simpa using hj) (by omega) hjn
        · intro j hj hjn
          cases j with
          | zero =>
            rw [List.getD_cons_zero] at hjn
            exact absurd hjn hn
          | succ j' =>
            rw [List.getD_cons_succ] at hjn ⊢
            exact hB j' (by omega) hjn

/-! ## Engine: `run` unfolding lemmas -/

lemma run_err {V : Type} (fr : FlowRunner V) (b : Behav V) (h : fr.isRunning = false)
    {e : String} (hc : calculateExecutionOrder fr.graph = .error e) :
    fr.run b =
      ({ fr with executionStates := initStates V fr.graph, executionOrder := [],
                 isRunning := false },
       [.errorLog ("Error during execution: " ++ e), .complete]) := by
  unfold FlowRunner.run
  rw [if_neg (by simp [h]), hc]

lemma run_ok {V : Type} (fr : FlowRunner V) (b : Behav V) (h : fr.isRunning = false)
    {order : List String} (hc : calculateExecutionOrder fr.graph = .ok order) :
    fr.run b =
      ({ fr with
           executionStates := (runLoop fr.graph b order (initStates V fr.graph)).1,
           executionOrder := order, isRunning := false },
       (runLoop fr.graph b order (initStates V fr.graph)).2 ++ [.complete]) := by
  unfold FlowRunner.run
  rw [if_neg (by simp [h]), hc]

/-! ## Record lemmas for input resolution -/

lemma lookup_map_set_self {V : Type} {k : String} {v : V} :
    ∀ r : List (String × V), r.any (fun p => p.1 == k) = true →
      lookupRecord (r.map (fun p => if p.1 == k then (k, v) else p)) k = some v := by
  intro r
  induction r with
  | nil => intro h; simp at h
  | cons p r' ih =>
    intro h
    by_cases hp : (p.1 == k) = true
    · simp only [List.map_cons, if_pos hp]
      unfold lookupRecord
      rw [List.find?_cons]
      simp
    · have h' : r'.any (fun p => p.1 == k) = true := by
        rcases List.any_eq_true.mp h with ⟨q, hq, hqk⟩
        rcases List.mem_cons.mp hq with rfl | hq'
        · exact absurd hqk hp
        · exact List.any_eq_true.mpr ⟨q, hq', hqk⟩
      have hpf : (p.1 == k) = false := by simpa using hp
      simp only [List.map_cons, if_neg hp]
      unfold lookupRecord at ih ⊢
      rw [List.find?_cons]
      simp only [hpf]
      exact ih h'

lemma lookup_map_set_ne {V : Type} {k k' : String} {v : V} (h : k' ≠ k) :
    ∀ r : List (String × V),
      lookupRecord (r.map (fun p => if p.1 == k then (k, v) else p)) k' =
        lookupRecord r k' := by
  intro r
  induction r with
  | nil => rfl
  | cons p r' ih =>
    by_cases hp : (p.1 == k) = true
    · have hpk : p.1 = k := by simpa using hp
      have e1 : (((k, v) : String × V).1 == k') = false := by simp [Ne.symm h]
      have e2 : (p.1 == k') = false := by simp [hpk, Ne.symm h]
      simp only [List.map_cons, if_pos hp]
      unfold lookupRecord at ih ⊢
      rw [List.find?_cons, List.find?_cons]
      simp only [e1, e2]
      exact ih
    · simp only [List.map_cons, if_neg hp]
      by_cases hpk' : (p.1 == k') = true
      · unfold lookupRecord
        rw [List.find?_cons, List.find?_cons]
        simp only [hpk']
      · have hpf : (p.1 == k') = false := by simpa using hpk'
        unfold lookupRecord at ih ⊢
        rw [List.find?_cons, List.find?_cons]
        simp only [hpf]
        exact ih

lemma lookup_setRecord_self {V : Type} (r : List (String × V)) (k : String) (v : V) :
    lookupRecord (setRecord r k v) k = some v := by
  unfold setRecord
  by_cases hany : r.any (fun p => p.1 == k) = true
  · rw [if_pos hany]
    exact lookup_map_set_self r hany
  · rw [if_neg hany]
    unfold lookupRecord
    rw [List.find?_append]
    have h1 : List.find? (fun p => p.1 == k) r = none := by
      rw [List.find?_eq_none]
      intro x hx hxk
      exact hany (List.any_eq_true.mpr ⟨x, hx, hxk⟩)
    rw [h1]
    simp

lemma lookup_setRecord_ne {V : Type} {r : List (String × V)} {k k' : String} {v : V}
    (h : k' ≠ k) :
    lookupRecord (setRecord r k v) k' = lookupRecord r k' := by
  unfold setRecord
  by_cases hany : r.any (fun p => p.1 == k) = true
  · rw [if_pos hany]
    exact lookup_map_set_ne h r
  · rw [if_neg hany]
    unfold lookupRecord
    rw [List.find?_append]
    have h1 : List.find? (fun p => p.1 == k') [(k, v)] = none := by
      simp [Ne.symm h]
    rw [h1]
    cases List.find? (fun p => p.1 == k') r <;> rfl

lemma inputStep_eq {V : Type} (g : Graph) (st : States V) (acc : List (String × V))
    (c : Conn) :
    inputStep g st acc c =
      match resolvedValue g st c with
      | some v => setRecord acc c.targetInput v
      | none => acc := by
  unfold inputStep resolvedValue
  by_cases h1 : c.source ∈ g.nodes
  · rw [if_pos h1, if_pos h1]
    cases hst : st c.source with
    | none => rfl
    | some s =>
      dsimp only [Option.bind]
      by_cases h2 : s.status = .success
      · simp only [if_pos h2]
      · simp only [if_neg h2]
  · rw [if_neg h1, if_neg h1]

lemma fold_preserve {V : Type} (g : Graph) (st : States V) (i : String) :
    ∀ (cs : List Conn) (acc : List (String × V)),
      (∀ c ∈ cs, c.targetInput = i → resolvedValue g st c = none) →
      lookupRecord (cs.foldl (inputStep g st) acc) i = lookupRecord acc i := by
  intro cs
  induction cs with
  | nil => intro acc _; rfl
  | cons c cs' ih =>
    intro acc h
    rw [List.foldl_cons, ih _ (fun c' hc' => h c' (List.mem_cons_of_mem _ hc'))]
    rw [inputStep_eq]
    cases hr : resolvedValue g st c with
    | none => rfl
    | some v =>
      dsimp only
      by_cases hti : c.targetInput = i
      · rw [h c (List.mem_cons_self _ _) hti] at hr
        exact absurd hr (by simp)
      · exact lookup_setRecord_ne (fun e => hti e.symm)

lemma fold_last {V : Type} (g : Graph) (st : States V) {c : Conn} {v : V}
    (hv : resolvedValue g st c = some v) :
    ∀ (l₁ l₂ : List Conn) (acc : List (String × V)),
      (∀ c' ∈ l₂, c'.targetInput = c.targetInput → resolvedValue g st c' = none) →
      lookupRecord ((l₁ ++ c :: l₂).foldl (inputStep g st) acc) c.targetInput = some v := by
  intro l₁ l₂ acc h
  rw [List.foldl_append, List.foldl_cons, fold_preserve g st _ l₂ _ h, inputStep_eq, hv]
  exact lookup_setRecord_self _ _ _

/-! ## Connection validation lemmas -/

lemma lookupRecord_mem {V : Type} {r : List (String × V)} {k : String} {v : V}
    (h : lookupRecord r k = some v) : ∃ k₀, (k₀, v) ∈ r := by
  unfold lookupRecord at h
  cases hf : r.find? (fun p => p.1 == k) with
  | none => rw [hf] at h; exact absurd h (by simp)
  | some p =>
    rw [hf] at h
    simp only [Option.map] at h
    obtain rfl : p.2 = v := by simpa using h
    exact ⟨p.1, by simpa using List.mem_of_find?_eq_some hf⟩

lemma compat_iff_spec {s t : String}
    (hs : s = "exec" ∨ s = "data" ∨ s = "any")
    (ht : t = "exec" ∨ t = "data" ∨ t = "any") :
    (areSocketsCompatible s t = true) ↔ specCompatible s t := by
  rcases hs with rfl | rfl | rfl <;> rcases ht with rfl | rfl | rfl <;>
    simp [areSocketsCompatible, specCompatible]

/-! ## Helper facts about the concrete witness inputs -/

lemma rel_gAcyclic {x y : String} (h : Rel gAcyclic x y) : x = "a" ∧ y = "b" := by
  obtain ⟨c, hc, hs, ht⟩ := h
  have hceq : c = ⟨"a", "x", "b", "y"⟩ := by simpa [gAcyclic] using hc
  subst hceq
  exact ⟨hs.symm, ht.symm⟩

lemma no_cycle_gAcyclic : ¬ hasCycle gAcyclic := by
  rintro ⟨id, h⟩
  have h1 : ∀ x y : String, Relation.TransGen (Rel gAcyclic) x y → x = "a" ∧ y = "b" := by
    intro x y h
    induction h with
    | single hr => exact rel_gAcyclic hr
    | tail _ hr ih => exact ⟨ih.1, (rel_gAcyclic hr).2⟩
  obtain ⟨h2, h3⟩ := h1 id id h
  rw [h2] at h3
  exact absurd h3 (by decide)

lemma wellFormed_gCycle : WellFormed gCycle := by
  unfold WellFormed
  decide

lemma hasCycle_gCycle : hasCycle gCycle := by
  refine ⟨"n1", ?_⟩
  have h1 : Rel gCycle "n1" "n2" := ⟨⟨"n1", "x", "n2", "y"⟩, by simp [gCycle], rfl, rfl⟩
  have h2 : Rel gCycle "n2" "n1" := ⟨⟨"n2", "x", "n1", "y"⟩, by simp [gCycle], rfl, rfl⟩
  exact Relation.TransGen.tail (Relation.TransGen.single h1) h2

lemma run_preserves {V : Type} (fr : FlowRunner V) (b : Behav V)
    (h : fr.isRunning = false) :
    (fr.run b).1.graph = fr.graph ∧ (fr.run b).1.isRunning = false := by
  cases hcalc : calculateExecutionOrder fr.graph with
  | error e => rw [run_err fr b h hcalc]; exact ⟨rfl, rfl⟩
  | ok order => rw [run_ok fr b h hcalc]; exact ⟨rfl, rfl⟩

lemma run_order_trace {V : Type} (fr : FlowRunner V) (b : Behav V)
    (h : fr.isRunning = false) :
    (fr.run b).1.executionOrder = orderOf fr.graph ∧ (fr.run b).2 = traceOf fr.graph b := by
  cases hcalc : calculateExecutionOrder fr.graph with
  | error e =>
    rw [run_err fr b h hcalc]
    unfold orderOf traceOf
    rw [hcalc]
    exact ⟨rfl, rfl⟩
  | ok order =>
    rw [run_ok fr b h hcalc]
    unfold orderOf traceOf
    rw [hcalc]
    exact ⟨rfl, rfl⟩

/-! ## Claim theorems -/

/-- C1: for every acyclic graph, `calculateExecutionOrder` succeeds, and for
every edge (A→B) of the graph the computed order places A strictly before B. -/
theorem c1_topological_soundness (g : Graph) (c : Conn) (hc : c ∈ g.conns)
    (hs : c.source ∈ g.nodes) (ht : c.target ∈ g.nodes) (hacyc : ¬ hasCycle g) :
    ∃ order, calculateExecutionOrder g = .ok order ∧
      order.indexOf c.source < order.indexOf c.target := by
  obtain ⟨order, hord⟩ := calc_acyclic_ok hacyc
  obtain ⟨hnd, hall, hgood⟩ := calc_ok_spec hord
  obtain ⟨h1, h2⟩ := hgood c hc (hall _ ht)
  exact ⟨order, hord, h2⟩

/-- Witness for C1: the two-node edge `a → b`. -/
theorem c1_witness :
    (⟨"a", "x", "b", "y"⟩ : Conn) ∈ gAcyclic.conns ∧ "a" ∈ gAcyclic.nodes ∧
    "b" ∈ gAcyclic.nodes ∧ ¬ hasCycle gAcyclic ∧
    ∃ order, calculateExecutionOrder gAcyclic = .ok order ∧
      order.indexOf "a" < order.indexOf "b" :=
  ⟨by decide, by decide, by decide, no_cycle_gAcyclic,
    c1_topological_soundness gAcyclic ⟨"a", "x", "b", "y"⟩ (by decide) (by decide)
      (by decide) no_cycle_gAcyclic⟩

/-- C2 counterexample: in a run of `a → b → c` where `a` has no `run` function
and `b` throws, `b` fails while not last in the order, yet the earlier node `a`
ends `pending`, not `success` as the claim demands. -/
theorem c2_counterexample :
    ((freshRunner Nat gChain).run bSkipFail).1.executionOrder = ["a", "b", "c"] ∧
    statusAt ((freshRunner Nat gChain).run bSkipFail).1.executionStates "b" =
      some .error ∧
    1 + 1 < ((freshRunner Nat gChain).run bSkipFail).1.executionOrder.length ∧
    statusAt ((freshRunner Nat gChain).run bSkipFail).1.executionStates "a" =
      some .pending ∧
    (some NodeStatus.pending ≠ some NodeStatus.success) :=
  ⟨by decide, by decide, by decide, by decide, by decide⟩

/-- C2 (amended): if the node at position `i` of the order fails, every node
after it stays `pending`, and every node before it is `success` if it had a
`run` function and still `pending` if it did not (the engine skips such nodes
without marking them). -/
theorem c2_fail_fast_halting {V : Type} (fr : FlowRunner V) (b : Behav V)
    (h : fr.isRunning = false) (i : Nat)
    (hi : i < (fr.run b).1.executionOrder.length)
    (herr : statusAt (fr.run b).1.executionStates
      ((fr.run b).1.executionOrder.getD i "") = some .error) :
    (∀ j, j < (fr.run b).1.executionOrder.length → i < j →
      (fr.run b).1.executionOrder.getD j "" ∈ fr.graph.nodes →
      statusAt (fr.run b).1.executionStates ((fr.run b).1.executionOrder.getD j "") =
        some .pending) ∧
    (∀ j, j < i → (fr.run b).1.executionOrder.getD j "" ∈ fr.graph.nodes →
      ((b ((fr.run b).1.executionOrder.getD j "")).isSome →
        statusAt (fr.run b).1.executionStates ((fr.run b).1.executionOrder.getD j "") =
          some .success) ∧
      (b ((fr.run b).1.executionOrder.getD j "") = none →
        statusAt (fr.run b).1.executionStates ((fr.run b).1.executionOrder.getD j "") =
          some .pending)) := by
  cases hcalc : calculateExecutionOrder fr.graph with
  | error e =>
    rw [run_err fr b h hcalc] at hi
    simp at hi
  | ok order =>
    rw [run_ok fr b h hcalc] at hi herr ⊢
    dsimp only at hi herr ⊢
    obtain ⟨hnd, _, _⟩ := calc_ok_spec hcalc
    exact runLoop_char fr.graph b order (initStates V fr.graph) hnd
      (fun id _ hidn => by unfold statusAt; rw [initStates_mem hidn]; rfl)
      (fun id _ hidn => initStates_not_mem hidn)
      i hi herr

/-- Witness for C2 (amended): the chain `a → b → c` where `b` throws. -/
theorem c2_witness :
    (freshRunner Nat gChain).isRunning = false ∧
    1 < ((freshRunner Nat gChain).run bMidFail).1.executionOrder.length ∧
    statusAt ((freshRunner Nat gChain).run bMidFail).1.executionStates
      (((freshRunner Nat gChain).run bMidFail).1.executionOrder.getD 1 "") =
      some .error ∧
    ((∀ j, j < ((freshRunner Nat gChain).run bMidFail).1.executionOrder.length → 1 < j →
      ((freshRunner Nat gChain).run bMidFail).1.executionOrder.getD j "" ∈ gChain.nodes →
      statusAt ((freshRunner Nat gChain).run bMidFail).1.executionStates
        (((freshRunner Nat gChain).run bMidFail).1.executionOrder.getD j "") =
        some .pending) ∧
    (∀ j, j < 1 → ((freshRunner Nat gChain).run bMidFail).1.executionOrder.getD j "" ∈
        gChain.nodes →
      ((bMidFail (((freshRunner Nat gChain).run bMidFail).1.executionOrder.getD j "")).isSome →
        statusAt ((freshRunner Nat gChain).run bMidFail).1.executionStates
          (((freshRunner Nat gChain).run bMidFail).1.executionOrder.getD j "") =
          some .success) ∧
      (bMidFail (((freshRunner Nat gChain).run bMidFail).1.executionOrder.getD j "") = none →
        statusAt ((freshRunner Nat gChain).run bMidFail).1.executionStates
          (((freshRunner Nat gChain).run bMidFail).1.executionOrder.getD j "") =
          some .pending))) :=
  ⟨rfl, by decide, by decide,
    c2_fail_fast_halting (freshRunner Nat gChain) bMidFail rfl 1 (by decide) (by decide)⟩

/-- C3 counterexample: the error thrown on the two-node cycle `n1 ⇄ n2` has the
fixed message `Cycle detected in the graph`, which names neither node id. -/
theorem c3_counterexample :
    calculateExecutionOrder gCycle = .error "Cycle detected in the graph" ∧
    containsSub "n1" "Cycle detected in the graph" = false ∧
    containsSub "n2" "Cycle detected in the graph" = false :=
  ⟨by rfl, by rfl, by rfl⟩

/-- C3 (amended): on a well-formed graph with a directed cycle, `run()` catches
the thrown `Error('Cycle detected in the graph')` (which does not name a node
id), logs it, executes zero nodes — every node stays `pending` — and still
fires `onExecutionComplete`. -/
theorem c3_cycle_detection {V : Type} (fr : FlowRunner V) (b : Behav V)
    (hw : WellFormed fr.graph) (hc : hasCycle fr.graph) (h : fr.isRunning = false) :
    fr.run b =
      ({ fr with executionStates := initStates V fr.graph, executionOrder := [],
                 isRunning := false },
       [.errorLog ("Error during execution: " ++ cycleMsg), .complete]) ∧
    ∀ id ∈ fr.graph.nodes,
      statusAt (fr.run b).1.executionStates id = some .pending := by
  have hrun := run_err fr b h (calc_cyc_err hw hc)
  refine ⟨hrun, ?_⟩
  intro id hid
  rw [hrun]
  unfold statusAt
  dsimp only
  rw [initStates_mem hid]
  rfl

/-- Witness for C3 (amended): the two-node cycle. -/
theorem c3_witness :
    WellFormed gCycle ∧ hasCycle gCycle ∧
    (freshRunner Nat gCycle).run (fun _ => none) =
      ({ freshRunner Nat gCycle with
          executionStates := initStates Nat gCycle
          executionOrder := []
          isRunning := false },
       [.errorLog ("Error during execution: " ++ cycleMsg), .complete]) :=
  ⟨wellFormed_gCycle, hasCycle_gCycle,
    (c3_cycle_detection (freshRunner Nat gCycle) (fun _ => none) wellFormed_gCycle
      hasCycle_gCycle rfl).1⟩

/-- C4 counterexample: two success sources `A` (value 1) and `B` (value 2) both
feed input `y` of `C`; the edge from `A` qualifies with value 1, yet the
resolved input at `y` is 2 — the later edge overwrote it. -/
theorem c4_counterexample :
    resolvedValue gTwoIntoOne stTwoIntoOne (⟨"A", "x", "C", "y"⟩ : Conn) = some 1 ∧
    lookupRecord (getNodeInputs gTwoIntoOne stTwoIntoOne "C") "y" = some 2 ∧
    lookupRecord (getNodeInputs gTwoIntoOne stTwoIntoOne "C") "y" ≠ some 1 :=
  ⟨by rfl, by rfl, by decide⟩

/-- C4 (amended): the resolved input at a target input equals the value of the
**last** connection (in connection-list order) into that input whose source
node exists with state `success` and whose named output is defined; inputs
with no such connection get no entry. -/
theorem c4_input_resolution {V : Type} (g : Graph) (st : States V) (B : String) :
    (∀ (c : Conn) (v : V) (l₁ l₂ : List Conn),
      g.conns = l₁ ++ c :: l₂ → c.target = B → resolvedValue g st c = some v →
      (∀ c' ∈ l₂, c'.target = B → c'.targetInput = c.targetInput →
        resolvedValue g st c' = none) →
      lookupRecord (getNodeInputs g st B) c.targetInput = some v) ∧
    (∀ i : String,
      (∀ c ∈ g.conns, c.target = B → c.targetInput = i → resolvedValue g st c = none) →
      lookupRecord (getNodeInputs g st B) i = none) := by
  constructor
  · intro c v l₁ l₂ hsplit htgt hv hlast
    unfold getNodeInputs
    rw [hsplit, List.filter_append, List.filter_cons_of_pos (by simp [htgt])]
    refine fold_last g st hv _ _ _ ?_
    intro c' hc' hti
    have hc'2 := List.mem_filter.mp hc'
    exact hlast c' hc'2.1 (by simpa using hc'2.2) hti
  · intro i hnone
    unfold getNodeInputs
    rw [fold_preserve g st i _ []
      (fun c hcf hti => hnone c (List.mem_filter.mp hcf).1
        (by simpa using (List.mem_filter.mp hcf).2) hti)]
    rfl

/-- Witness for C4 (amended): `A` succeeded with `{x: 42}`, one edge
`A.x → B.y`, so `B` resolves `inputs.y = 42`. -/
theorem c4_witness :
    gSingleEdge.conns = [] ++ (⟨"A", "x", "B", "y"⟩ : Conn) :: [] ∧
    resolvedValue gSingleEdge stSingleEdge ⟨"A", "x", "B", "y"⟩ = some 42 ∧
    lookupRecord (getNodeInputs gSingleEdge stSingleEdge "B") "y" = some 42 :=
  ⟨rfl, by rfl,
    (c4_input_resolution gSingleEdge stSingleEdge "B").1 ⟨"A", "x", "B", "y"⟩ 42 [] []
      rfl rfl (by rfl) (fun c' hc' _ _ => absurd hc' (List.not_mem_nil c'))⟩

/-- C5 counterexample: invoking `run()` while running produces only a console
warning and a normal return — no `AlreadyRunningError` is raised or rejected
(the trace contains no error event), and the runner is returned unchanged. -/
theorem c5_counterexample :
    ({ freshRunner Nat gAcyclic with isRunning := true }).run (fun _ => none) =
      ({ freshRunner Nat gAcyclic with isRunning := true },
       [.warn "Execution already in progress"]) ∧
    ((({ freshRunner Nat gAcyclic with isRunning := true }).run (fun _ => none)).2.all
      (fun e => !isErrorEv e)) = true :=
  ⟨rfl, rfl⟩

/-- C5 (amended): a `run()` invocation while a run is in flight is a silent
no-op — it logs `Execution already in progress` to the console and returns,
leaving the execution states and execution order untouched; no
`AlreadyRunningError` exists in the code. -/
theorem c5_reentrancy_noop {V : Type} (fr : FlowRunner V) (b : Behav V)
    (h : fr.isRunning = true) :
    fr.run b = (fr, [.warn "Execution already in progress"]) := by
  unfold FlowRunner.run
  rw [if_pos h]

/-- Witness for C5 (amended). -/
theorem c5_witness :
    ({ freshRunner Nat gAcyclic with isRunning := true }).isRunning = true ∧
    ({ freshRunner Nat gAcyclic with isRunning := true }).run (fun _ => none) =
      ({ freshRunner Nat gAcyclic with isRunning := true },
       [.warn "Execution already in progress"]) :=
  ⟨rfl, c5_reentrancy_noop { freshRunner Nat gAcyclic with isRunning := true }
    (fun _ => none) rfl⟩

/-- C6: every `run()` that starts (the engine was idle) returns normally — the
model of `run` is a total function — and fires `onExecutionComplete` exactly
once, as the final outward event, whether the run finished, halted on a node
error, or aborted on a scheduling error. -/
theorem c6_complete_once {V : Type} (fr : FlowRunner V) (b : Behav V)
    (h : fr.isRunning = false) :
    (fr.run b).2.countP (fun e => isCompleteEv e) = 1 ∧
    (fr.run b).2.getLast? = some .complete := by
  cases hcalc : calculateExecutionOrder fr.graph with
  | error e =>
    rw [run_err fr b h hcalc]
    exact ⟨rfl, rfl⟩
  | ok order =>
    rw [run_ok fr b h hcalc]
    constructor
    · rw [List.countP_append]
      have h0 : (runLoop fr.graph b order (initStates V fr.graph)).2.countP
          (fun e => isCompleteEv e) = 0 :=
        List.countP_eq_zero.mpr (fun e he => by
          have hev := runLoop_events fr.graph b order (initStates V fr.graph) e he
          simp [hev])
      rw [h0]
      rfl
    · rw [List.getLast?_concat]

/-- Witness for C6: the chain `a → b → c` where `b` throws. -/
theorem c6_witness :
    (freshRunner Nat gChain).isRunning = false ∧
    ((freshRunner Nat gChain).run bMidFail).2.countP (fun e => isCompleteEv e) = 1 ∧
    ((freshRunner Nat gChain).run bMidFail).2.getLast? = some .complete :=
  ⟨rfl, (c6_complete_once (freshRunner Nat gChain) bMidFail rfl).1,
    (c6_complete_once (freshRunner Nat gChain) bMidFail rfl).2⟩

/-- C7: with no graph mutation in between, a second `run()` on the same runner
computes the identical execution order and emits the identical sequence of
callbacks — the order and trace are functions of the node and connection
lists alone. -/
theorem c7_determinism {V : Type} (fr : FlowRunner V) (b : Behav V)
    (h : fr.isRunning = false) :
    ((fr.run b).1.run b).1.executionOrder = (fr.run b).1.executionOrder ∧
    ((fr.run b).1.run b).2 = (fr.run b).2 := by
  obtain ⟨hg, hr⟩ := run_preserves fr b h
  obtain ⟨ho1, ht1⟩ := run_order_trace fr b h
  obtain ⟨ho2, ht2⟩ := run_order_trace (fr.run b).1 b hr
  rw [hg] at ho2 ht2
  exact ⟨ho2.trans ho1.symm, ht2.trans ht1.symm⟩

/-- Witness for C7: two consecutive runs over the two-node graph. -/
theorem c7_witness :
    (freshRunner Nat gAcyclic).isRunning = false ∧
    ((((freshRunner Nat gAcyclic).run (fun _ => none)).1.run (fun _ => none)).1.executionOrder =
      ((freshRunner Nat gAcyclic).run (fun _ => none)).1.executionOrder ∧
    (((freshRunner Nat gAcyclic).run (fun _ => none)).1.run (fun _ => none)).2 =
      ((freshRunner Nat gAcyclic).run (fun _ => none)).2) :=
  ⟨rfl, c7_determinism (freshRunner Nat gAcyclic) (fun _ => none) rfl⟩

/-- C8: over the socket types actually declared (`exec`, `data`, `any`),
`validateConnection` accepts exactly when the nodes differ, both named ports
exist, and the port types satisfy the compatibility relation of the spec
(`any` with anything, `exec` only with `exec`, `data` only with `data`). -/
theorem c8_validate_connection (sn : EditorNode) (so : String) (tn : EditorNode)
    (ti : String)
    (hs : ∀ p ∈ sn.outputs, p.2 = "exec" ∨ p.2 = "data" ∨ p.2 = "any")
    (ht : ∀ p ∈ tn.inputs, p.2 = "exec" ∨ p.2 = "data" ∨ p.2 = "any") :
    validateConnection sn so tn ti = true ↔
      (sn.id ≠ tn.id ∧
       ∃ sType tType, lookupRecord sn.outputs so = some sType ∧
         lookupRecord tn.inputs ti = some tType ∧ specCompatible sType tType) := by
  unfold validateConnection
  by_cases hid : (sn.id == tn.id) = true
  · rw [if_pos hid]
    have heq : sn.id = tn.id := by simpa using hid
    constructor
    · intro hh
      exact absurd hh (by simp)
    · rintro ⟨hne, _⟩
      exact absurd heq hne
  · rw [if_neg hid]
    have hne : sn.id ≠ tn.id := by simpa using hid
    cases hso : lookupRecord sn.outputs so with
    | none =>
      constructor
      · intro hh
        exact absurd hh (by simp)
      · rintro ⟨_, sType, tType, h1, _, _⟩
        exact absurd h1 (by simp)
    | some sType =>
      cases hti2 : lookupRecord tn.inputs ti with
      | none =>
        constructor
        · intro hh
          exact absurd hh (by simp)
        · rintro ⟨_, sT, tT, _, h2, _⟩
          exact absurd h2 (by simp)
      | some tType =>
        dsimp only
        have hsty : sType = "exec" ∨ sType = "data" ∨ sType = "any" := by
          obtain ⟨k₀, hk⟩ := lookupRecord_mem hso
          exact hs _ hk
        have htty : tType = "exec" ∨ tType = "data" ∨ tType = "any" := by
          obtain ⟨k₀, hk⟩ := lookupRecord_mem hti2
          exact ht _ hk
        constructor
        · intro hcomp
          exact ⟨hne, sType, tType, rfl, rfl, (compat_iff_spec hsty htty).mp hcomp⟩
        · rintro ⟨_, sT, tT, h1, h2, hcomp⟩
          obtain rfl : sT = sType := (Option.some.inj h1).symm
          obtain rfl : tT = tType := (Option.some.inj h2).symm
          exact (compat_iff_spec hsty htty).mpr hcomp

/-- Witness for C8: a `data` output into a `data` input between distinct nodes. -/
theorem c8_witness :
    (∀ p ∈ snData.outputs, p.2 = "exec" ∨ p.2 = "data" ∨ p.2 = "any") ∧
    (∀ p ∈ tnData.inputs, p.2 = "exec" ∨ p.2 = "data" ∨ p.2 = "any") ∧
    (validateConnection snData "out" tnData "in" = true ↔
      (snData.id ≠ tnData.id ∧
       ∃ sType tType, lookupRecord snData.outputs "out" = some sType ∧
         lookupRecord tnData.inputs "in" = some tType ∧ specCompatible sType tType)) :=
  ⟨by decide, by decide,
    c8_validate_connection snData "out" tnData "in" (by decide) (by decide)⟩

/-- C9: `BaseNode.run` resolves for every input; when the node's `executeNode`
throws, it resolves with `success: false` and the thrown message in `error`
instead of propagating the exception. -/
theorem c9_base_node_run_resolves {V : Type}
    (f : List (String × V) → Except String (List (String × V)))
    (inputs : List (String × V)) (msg : String) (h : f inputs = .error msg) :
    baseNodeRun f inputs =
      { success := false, output := none, error := some msg,
        logs := ["Node execution started", "Error: " ++ msg] } := by
  unfold baseNodeRun
  rw [h]
  rfl

/-- Witness for C9: an `executeNode` that always throws. -/
theorem c9_witness :
    ((fun _ => Except.error "kaboom" :
        List (String × Nat) → Except String (List (String × Nat))) [] =
      .error "kaboom") ∧
    baseNodeRun
        (fun _ => Except.error "kaboom" :
          List (String × Nat) → Except String (List (String × Nat))) [] =
      { success := false, output := none, error := some "kaboom",
        logs := ["Node execution started", "Error: " ++ "kaboom"] } :=
  ⟨rfl, c9_base_node_run_resolves (fun _ => Except.error "kaboom") [] "kaboom" rfl⟩

/-- C10: a node that is not `pending` or has no `run` function is skipped:
`executeNode` returns a `skipped` copy without writing the state map and
without firing any callback, and (as long as the stored status is not
`error`) the loop proceeds to the rest of the order instead of halting. -/
theorem c10_skip_continues {V : Type} (g : Graph) (b : Behav V) (nodeId : String)
    (st : States V) (rest : List String)
    (hn : nodeId ∈ g.nodes)
    (hskip : b nodeId = none ∨ ((st nodeId).getD ⟨.pending, none, none⟩).status ≠ .pending)
    (hne : statusAt st nodeId ≠ some .error) :
    executeNodeM g b nodeId st =
      ({ (st nodeId).getD ⟨.pending, none, none⟩ with status := .skipped }, st, []) ∧
    runLoop g b (nodeId :: rest) st = runLoop g b rest st := by
  refine ⟨executeNodeM_skip hskip, ?_⟩
  simp only [runLoop]
  rw [if_pos hn, executeNodeM_skip hskip]
  dsimp only
  cases hst : st nodeId with
  | none => rfl
  | some s =>
    dsimp only
    have hsne : ¬ s.status = NodeStatus.error := by
      intro he
      apply hne
      unfold statusAt
      rw [hst]
      simp [he]
    rw [if_neg hsne]
    rfl

/-- Witness for C10: over the chain `a → b → c`, node `a` has no `run`
function and is skipped without halting the run. -/
theorem c10_witness :
    "a" ∈ gChain.nodes ∧
    bSkipFail "a" = none ∧
    statusAt (initStates Nat gChain) "a" ≠ some .error ∧
    (executeNodeM gChain bSkipFail "a" (initStates Nat gChain) =
      ({ (initStates Nat gChain "a").getD ⟨.pending, none, none⟩ with
          status := .skipped }, initStates Nat gChain, []) ∧
    runLoop gChain bSkipFail ("a" :: ["b", "c"]) (initStates Nat gChain) =
      runLoop gChain bSkipFail ["b", "c"] (initStates Nat gChain)) :=
  ⟨by decide, rfl, by decide,
    c10_skip_continues gChain bSkipFail "a" (initStates Nat gChain) ["b", "c"]
      (by decide) (Or.inl rfl) (by decide)⟩

end ReteDemo
